import Mathlib

/-!
Shallow embedding of the `temportofoto` background job pipeline
(`app/models.py`, `app/jobs.py`, `app/main.py`) together with theorems
settling the specification claims about it.

Conventions of the embedding:
* Python `float` arithmetic on progress fractions is modelled over `ℚ`
  (the quantities involved are ratios of integers and decimal literals).
* `datetime` values are modelled as whole seconds (`ℕ`).
* Fallible Python operations (attribute lookup on a named tuple, `int(...)`
  parsing, division) are modelled with `Option`/explicit error results.
-/

namespace Temportofoto

/-- Python exceptions that the embedded code can raise. -/
inductive PyErr where
  /-- `AttributeError`: named-tuple attribute lookup failed for this name. -/
  | attributeError (attr : String)
  /-- `ZeroDivisionError` from `/` with zero divisor. -/
  | zeroDivisionError
  /-- pydantic `ValueError` from assigning a field the model does not declare. -/
  | valueError (msg : String)
  /-- a plain `Exception(msg)`. -/
  | generic (msg : String)
deriving DecidableEq, Repr

/-- `app/models.py`: `class Status(NamedTuple)` — these are the only fields
the named tuple declares. -/
structure Status where
  downloading : String := "downloading"
  downloaded : String := "downloaded"
deriving DecidableEq, Repr

/-- `app/models.py`: `STATUS = Status()`. -/
def STATUS : Status := {}

/-- Python attribute lookup on the `Status` named tuple: the declared fields
resolve to their values, every other name raises `AttributeError` (`none`). -/
def Status.attr (st : Status) : String → Option String
  | "downloading" => some st.downloading
  | "downloaded" => some st.downloaded
  | _ => none

/-- `app/models.py`: `class CogFile(SQLModel, table=True)` — exactly the
declared columns, in source order.  There is no `convert_pct` column. -/
structure CogFile where
  url : String
  abs_file_path : String
  request_dt : ℕ
  delete_after : ℕ
  status : String
  total_size_bytes : ℤ
  downloaded_bytes : ℤ
  download_pct : ℚ
deriving DecidableEq, Repr

/-- A value appearing in a persisted database row. -/
inductive PyVal where
  | s (v : String)
  | i (v : ℤ)
  | q (v : ℚ)
  | nat (v : ℕ)
deriving DecidableEq, Repr

/-- A committed database row: column name to value. -/
abbrev Row := List (String × PyVal)

/-- The row a `db_session.commit()` durably writes for a `CogFile` object:
exactly the declared columns (SQLAlchemy persists mapped columns only). -/
def CogFile.toRow (f : CogFile) : Row :=
  [("url", .s f.url), ("abs_file_path", .s f.abs_file_path),
   ("request_dt", .nat f.request_dt), ("delete_after", .nat f.delete_after),
   ("status", .s f.status), ("total_size_bytes", .i f.total_size_bytes),
   ("downloaded_bytes", .i f.downloaded_bytes), ("download_pct", .q f.download_pct)]

/-! ## Progress Tracker: `_get_percentage_from_buffer` (`app/jobs.py`)

The source computes `re.findall(r"\d+(?:\.\d+)?[ ]?%", buffer_content)` and,
when the list is nonempty, `float(matches[-1].replace("%", "")) / 100`.
The regex is embedded as a direct scanner: at each position it tries to match
a maximal digit run, an optional `.`-plus-digit-run, an optional single
space, then `%`; `findall` scans left to right taking non-overlapping
matches and advancing one character after a failed position. -/

/-- Numeric value of a digit run. -/
def digitsVal (ds : List Char) : ℕ :=
  ds.foldl (fun a c => 10 * a + (c.toNat - 48)) 0

/-- Value of a matched number `d1` or `d1.d2`. -/
def numVal (d1 : List Char) (d2 : Option (List Char)) : ℚ :=
  match d2 with
  | none => (digitsVal d1 : ℚ)
  | some ds => (digitsVal d1 : ℚ) + (digitsVal ds : ℚ) / ((10 ^ ds.length : ℕ) : ℚ)

/-- The tail of the regex, `[ ]?%`: number of characters it consumes here. -/
def spacePct : List Char → Option ℕ
  | '%' :: _ => some 1
  | ' ' :: '%' :: _ => some 2
  | _ => none

/-- Attempt of the regex `\d+(?:\.\d+)?[ ]?%` anchored at the head of `cs`:
on success, the numeric value of the matched number and the match length. -/
def matchAt (cs : List Char) : Option (ℚ × ℕ) :=
  let d1 := cs.takeWhile Char.isDigit
  if d1.isEmpty then none
  else
    match cs.drop d1.length with
    | '.' :: rest2 =>
      let d2 := rest2.takeWhile Char.isDigit
      if d2.isEmpty then none
      else
        match spacePct (rest2.drop d2.length) with
        | some k => some (numVal d1 (some d2), d1.length + 1 + d2.length + k)
        | none => none
    | rest1 =>
      match spacePct rest1 with
      | some k => some (numVal d1 none, d1.length + k)
      | none => none

/-- The `re.findall` scan, fuelled for structural recursion (the fuel is the
input length; each step consumes at least one character). -/
def scanGo : ℕ → List Char → List ℚ
  | 0, _ => []
  | _, [] => []
  | fuel + 1, c :: cs =>
    match matchAt (c :: cs) with
    | some (v, k) => v :: scanGo fuel ((c :: cs).drop k)
    | none => scanGo fuel cs

/-- Values of all matches of `\d+(?:\.\d+)?[ ]?%` in the buffer, in order. -/
def scanPct (cs : List Char) : List ℚ :=
  scanGo cs.length cs

/-- `app/jobs.py`: `_get_percentage_from_buffer` — the value of the last
regex match divided by 100, or `None` when there is no match. -/
def get_percentage_from_buffer (buffer_content : String) : Option ℚ :=
  (scanPct buffer_content.data).getLast?.map (fun v => v / 100)

/-! ## Progress Monitor: `_update_convert_progress` (`app/jobs.py`)

The loop body, per tick: read the buffer, parse; if the parse is present and
strictly positive, execute `metadata.convert_pct = progress` followed by
`add`/`commit`; then, if the parse is present and at least `1.0`, break;
otherwise sleep and repeat.  `CogFile` declares no `convert_pct` field, so
the assignment is a pydantic field assignment to an undeclared field, which
raises `ValueError` (`"CogFile" object has no field "convert_pct"`); the
monitor's `try` only swallows `CancelledError`, so the task dies there.

The infinite sampled loop is modelled on the finite list of buffer contents
the task would observe at its successive ticks. -/

/-- How a monitor run ended. -/
inductive MonitorStop where
  /-- the assignment `metadata.convert_pct = progress` raised `ValueError`. -/
  | valueError
  /-- the loop broke on `progress >= 1.0`. -/
  | reachedFull
  /-- every provided sample was consumed without stopping (the real loop
  would keep sleeping / be cancelled by the orchestrator). -/
  | cancelled
deriving DecidableEq, Repr

/-- `app/jobs.py`: `_update_convert_progress`, over the successive buffer
snapshots; returns how the loop ended and the commit log it produced. -/
def update_convert_progress : List String → List Row → MonitorStop × List Row
  | [], log => (.cancelled, log)
  | s :: rest, log =>
    match get_percentage_from_buffer s with
    | some p =>
      if 0 < p then (.valueError, log)
      else if 1 ≤ p then (.reachedFull, log)
      else update_convert_progress rest log
    | none => update_convert_progress rest log

/-! ## Orchestrator: `download_file` (`app/jobs.py`) -/

/-- Python `/` on the byte counters: `ZeroDivisionError` on zero divisor. -/
def pyDiv (a b : ℤ) : Except PyErr ℚ :=
  if b = 0 then .error .zeroDivisionError else .ok ((a : ℚ) / (b : ℚ))

/-- One iteration of the chunk loop: `downloaded_bytes += len(chunk)`, then
`download_pct = downloaded_bytes / total_size_bytes`.  On the division
error the counter increment has already happened. -/
def chunkStep (f : CogFile) (numBytes : ℕ) : Except (PyErr × CogFile) CogFile :=
  match pyDiv (f.downloaded_bytes + numBytes) f.total_size_bytes with
  | .error e => .error (e, { f with downloaded_bytes := f.downloaded_bytes + numBytes })
  | .ok pct =>
    .ok { f with downloaded_bytes := f.downloaded_bytes + numBytes, download_pct := pct }

/-- The chunk loop with its per-chunk `add`/`commit`: on success the final
object and commit log, on an exception the state at the raise point. -/
def transferLoop : List ℕ → CogFile → List Row →
    Except (PyErr × CogFile × List Row) (CogFile × List Row)
  | [], f, log => .ok (f, log)
  | n :: rest, f, log =>
    match chunkStep f n with
    | .error (e, f1) => .error (e, f1, log)
    | .ok f1 => transferLoop rest f1 (log ++ [f1.toRow])

/-- Behaviour of the remote transfer: the chunks the stream yields, and
whether the HTTP layer raises (`raise_for_status` on non-2xx — then with no
chunks — or a transport error after the listed chunks). -/
structure TransferBehavior where
  chunks : List ℕ
  failsAfter : Bool
deriving DecidableEq, Repr

/-- Behaviour of the opaque `cog_translate` call. -/
inductive TransformBehavior where
  | ok
  | raises
deriving DecidableEq, Repr

/-- Result of a `download_file` job run. -/
inductive JobResult where
  /-- the coroutine returned normally. -/
  | ok
  /-- an exception escaped `download_file` (uncaught by its `except`). -/
  | uncaught (e : PyErr)
deriving DecidableEq, Repr

/-- Final state of a `download_file` job. -/
structure JobRun where
  /-- the in-memory `metadata` object (none when the DB lookup failed). -/
  record : Option CogFile
  /-- the rows committed to the store, in commit order. -/
  log : List Row
  result : JobResult
  /-- whether control ever reached the `cog_translate` conversion call. -/
  transformRan : Bool
deriving DecidableEq, Repr

/-- The `except Exception` handler: `metadata.status = STATUS.error` then
commit.  `Status` declares no `error` field, so the lookup raises a fresh
`AttributeError`, which escapes the handler uncaught. -/
def exceptHandler (f : CogFile) (log : List Row) (tRan : Bool) : JobRun :=
  match STATUS.attr "error" with
  | some s =>
    let f1 := { f with status := s }
    { record := some f1, log := log ++ [f1.toRow], result := .ok, transformRan := tRan }
  | none =>
    { record := some f, log := log, result := .uncaught (.attributeError "error"),
      transformRan := tRan }

/-- The stages of `download_file` after a fully successful stream: mark
`downloaded`, mark `processing`, run the conversion under the monitor, do
the final `convert_pct` update, mark `ready`.  Each `STATUS` lookup is a
named-tuple attribute access; a miss raises inside the `try` and reaches
the handler. -/
def afterTransfer (f : CogFile) (log : List Row) (transform : TransformBehavior) : JobRun :=
  match STATUS.attr "downloaded" with
  | none => exceptHandler f log false
  | some sDownloaded =>
    let f1 := { f with status := sDownloaded }
    let log1 := log ++ [f1.toRow]
    match STATUS.attr "processing" with
    | none => exceptHandler f1 log1 false
    | some sProcessing =>
      let f2 := { f1 with status := sProcessing }
      let log2 := log1 ++ [f2.toRow]
      -- monitor task started; `cog_translate` runs in the executor
      match transform with
      | .raises => exceptHandler f2 log2 true
      | .ok =>
        -- `metadata.convert_pct = final_progress`: undeclared field, the
        -- pydantic assignment raises `ValueError` inside the `try`
        exceptHandler f2 log2 true

/-- `app/jobs.py`: `download_file`, given the DB record for the url, the
transfer behaviour and the transform behaviour. -/
def download_file (dbRecord : Option CogFile) (transfer : TransferBehavior)
    (transform : TransformBehavior) : JobRun :=
  match dbRecord with
  | none =>
    -- `raise Exception(f"Did not find entry in DB for url: ...")` — outside
    -- the `try`, so it propagates
    { record := none, log := [], result := .uncaught (.generic "Did not find entry in DB for url"),
      transformRan := false }
  | some f0 =>
    match transferLoop transfer.chunks f0 [] with
    | .error (_, f1, log) => exceptHandler f1 log false
    | .ok (f1, log) =>
      if transfer.failsAfter then exceptHandler f1 log false
      else afterTransfer f1 log transform

/-! ## Registration endpoint: `file_download` (`app/main.py`) -/

/-- Leading and trailing whitespace removed, as Python `int()` does before
parsing. -/
def stripChars (cs : List Char) : List Char :=
  ((cs.dropWhile Char.isWhitespace).reverse.dropWhile Char.isWhitespace).reverse

/-- Python `int(s)` on a string: optional sign and a nonempty digit run,
surrounding whitespace stripped; anything else raises `ValueError`. -/
def pyIntOfString (s : String) : Option ℤ :=
  match stripChars s.data with
  | [] => none
  | '-' :: ds => if ds ≠ [] ∧ ds.all Char.isDigit then some (-(digitsVal ds : ℤ)) else none
  | '+' :: ds => if ds ≠ [] ∧ ds.all Char.isDigit then some (digitsVal ds : ℤ) else none
  | ds => if ds.all Char.isDigit then some (digitsVal ds : ℤ) else none

/-- Outcome of the `HEAD` probe for the file size. -/
inductive HeadResult where
  /-- `httpx.ReadTimeout` / `httpx.ConnectTimeout`. -/
  | timeout
  /-- a response, with its `Content-Length` header if present. -/
  | response (contentLength : Option String)
deriving DecidableEq, Repr

/-- The HTTP response of the `POST /file` endpoint. -/
inductive RegResponse where
  /-- 202: job accepted. -/
  | accepted
  /-- 409: url already tracked. -/
  | conflict
  /-- 503: size unavailable. -/
  | unavailable
  /-- an uncaught exception in the handler (HTTP 500). -/
  | serverError (e : PyErr)
deriving DecidableEq, Repr

/-- Effects of one registration request. -/
structure RegOutcome where
  response : RegResponse
  /-- the `CogFile` row added and committed, when one is. -/
  newRecord : Option CogFile
  /-- whether `scheduler.add_job` was reached. -/
  jobEnqueued : Bool
deriving DecidableEq, Repr

/-- `timedelta(days=7)` in seconds. -/
def sevenDays : ℕ := 604800

/-- The part of `file_download` after the duplicate check: `HEAD` probe,
`Content-Length` handling (`int(cl) if cl else None`, then
`if total_size_bytes is None: return 503`), record creation and
`scheduler.add_job`. -/
def registrationBody (head : HeadResult) (file_url local_file_path : String)
    (now : ℕ) : RegOutcome :=
  match head with
  | .timeout => { response := .unavailable, newRecord := none, jobEnqueued := false }
  | .response cl =>
    match cl with
    | none => { response := .unavailable, newRecord := none, jobEnqueued := false }
    | some s =>
      if s = "" then { response := .unavailable, newRecord := none, jobEnqueued := false }
      else
        match pyIntOfString s with
        | none =>
          { response := .serverError (.valueError "invalid literal for int"),
            newRecord := none, jobEnqueued := false }
        | some total =>
          let f : CogFile :=
            { url := file_url, abs_file_path := local_file_path, request_dt := now,
              delete_after := now + sevenDays, status := STATUS.downloading,
              total_size_bytes := total, downloaded_bytes := 0, download_pct := 0 }
          { response := .accepted, newRecord := some f, jobEnqueued := true }

/-- `app/main.py`: `file_download` — the `POST /file` handler, given the
existing DB record for the url (if any) and the `HEAD` probe behaviour.
The duplicate check is `if f is not None and f.status != STATUS.error`;
`Status` declares no `error` field, so whenever a record exists the lookup
raises `AttributeError`, which escapes the handler. -/
def file_download (existing : Option CogFile) (head : HeadResult)
    (file_url local_file_path : String) (now : ℕ) : RegOutcome :=
  match existing with
  | none => registrationBody head file_url local_file_path now
  | some f =>
    match STATUS.attr "error" with
    | none =>
      { response := .serverError (.attributeError "error"), newRecord := none,
        jobEnqueued := false }
    | some errS =>
      if f.status ≠ errS then
        { response := .conflict, newRecord := none, jobEnqueued := false }
      else registrationBody head file_url local_file_path now

/-! ## Spec-side definitions

These formalise the wording of the specification claims, for comparison
with the embedded code. -/

/-- Column access on a committed row. -/
def Row.col (r : Row) (name : String) : Option PyVal :=
  match r with
  | [] => none
  | (k, v) :: rest => if k = name then some v else Row.col rest name

/-- Spec wording (claim C3): `t` consists of an integer-or-decimal number
immediately followed by a percent sign — `digits+ %` or `digits+ . digits+ %`
with no intervening character. -/
def isImmediateNumPct (t : List Char) : Bool :=
  let d1 := t.takeWhile Char.isDigit
  !d1.isEmpty &&
    (match t.drop d1.length with
     | ['%'] => true
     | '.' :: r =>
       let d2 := r.takeWhile Char.isDigit
       !d2.isEmpty && r.drop d2.length = ['%']
     | _ => false)

/-- Spec wording (claim C3): the string has a substring that is an
integer-or-decimal number immediately followed by a percent sign. -/
def containsImmediateNumPct (s : String) : Bool :=
  (List.range (s.data.length + 1)).any fun i =>
    (List.range (s.data.length + 1)).any fun l =>
      isImmediateNumPct ((s.data.drop i).take l)

/-- Amended-claim grammar: `t` is an integer-or-decimal number, followed by
at most one space, followed by a percent sign, and `v` is the number's
value. -/
def midPart : Option (List Char) → List Char
  | none => []
  | some ds => '.' :: ds

def IsTok (t : List Char) (v : ℚ) : Prop :=
  ∃ (d1 : List Char) (d2 : Option (List Char)) (sp : List Char),
    d1 ≠ [] ∧ d1.all Char.isDigit = true ∧
    (∀ ds, d2 = some ds → ds ≠ [] ∧ ds.all Char.isDigit = true) ∧
    (sp = [] ∨ sp = [' ']) ∧
    t = d1 ++ midPart d2 ++ sp ++ ['%'] ∧
    v = numVal d1 d2

/-- `IsTok` located inside a character list: the substring of length `l`
starting at position `i` is such a token with value `v`. -/
def TokAt (cs : List Char) (i l : ℕ) (v : ℚ) : Prop :=
  IsTok ((cs.drop i).take l) v ∧ i + l ≤ cs.length

/-- Running byte totals of a chunk sequence, starting from `acc`. -/
def runningTotalsFrom (acc : ℤ) : List ℕ → List ℤ
  | [] => []
  | n :: rest => (acc + n) :: runningTotalsFrom (acc + n) rest

/-- Total size of a chunk sequence. -/
def natSum : List ℕ → ℕ
  | [] => 0
  | n :: rest => n + natSum rest

/-- Claim C7's premise: the remote resource's declared total size cannot be
obtained — the `HEAD` probe timed out, or the response carries no usable
`Content-Length` (absent, empty, or unparsable as an integer). -/
def sizeUnobtainable (head : HeadResult) : Prop :=
  head = .timeout ∨ head = .response none ∨
  ∃ s, head = .response (some s) ∧ pyIntOfString s = none

/-! ## Sample records used by witnesses -/

/-- A freshly registered record, as `file_download` creates it. -/
def sampleDownloading : CogFile :=
  { url := "http://example.com/a.tif", abs_file_path := "/data/a.tif",
    request_dt := 0, delete_after := 604800, status := "downloading",
    total_size_bytes := 10, downloaded_bytes := 0, download_pct := 0 }

/-- A record whose stored lifecycle state is the string `"error"`. -/
def sampleError : CogFile := { sampleDownloading with status := "error" }

/-- A record registered from a `Content-Length: 0` response. -/
def sampleZeroTotal : CogFile := { sampleDownloading with total_size_bytes := 0 }

/-! ## Helper lemmas -/

/-- The committed row of a record holds its status under the `status` key. -/
theorem toRow_col_status (f : CogFile) : Row.col f.toRow "status" = some (.s f.status) := rfl

/-- The log component of a `transferLoop` result, successful or not. -/
def tlLog : Except (PyErr × CogFile × List Row) (CogFile × List Row) → List Row
  | .ok (_, l) => l
  | .error (_, _, l) => l

/-- A successful `chunkStep` only updates `downloaded_bytes` and
`download_pct`. -/
theorem chunkStep_ok_shape {f : CogFile} {n : ℕ} {f1 : CogFile}
    (h : chunkStep f n = .ok f1) :
    ∃ b p, f1 = { f with downloaded_bytes := b, download_pct := p } := by
  unfold chunkStep at h
  cases hd : pyDiv (f.downloaded_bytes + n) f.total_size_bytes with
  | error e => rw [hd] at h; cases h
  | ok pct =>
    rw [hd] at h
    exact ⟨f.downloaded_bytes + n, pct, (Except.ok.inj h).symm⟩

/-- Every row the chunk loop commits beyond the incoming log is the incoming
record with only its byte counter and fraction changed. -/
theorem transferLoop_rows (chunks : List ℕ) :
    ∀ (f : CogFile) (log : List Row), ∀ r ∈ tlLog (transferLoop chunks f log),
      r ∈ log ∨
        ∃ b p, r = ({ f with downloaded_bytes := b, download_pct := p } : CogFile).toRow := by
  induction chunks with
  | nil => intro f log r hr; exact .inl hr
  | cons n rest ih =>
    intro f log r hr
    simp only [transferLoop] at hr
    cases hcs : chunkStep f n with
    | error ef =>
      rw [hcs] at hr
      exact .inl hr
    | ok f1 =>
      rw [hcs] at hr
      obtain ⟨b', p', hf1⟩ := chunkStep_ok_shape hcs
      rcases ih f1 (log ++ [f1.toRow]) r hr with h | ⟨b, p, rfl⟩
      · rcases List.mem_append.1 h with h | h
        · exact .inl h
        · refine .inr ⟨b', p', ?_⟩
          rw [List.mem_singleton.1 h, hf1]
      · subst hf1
        exact .inr ⟨b, p, rfl⟩

/-- A job's commit log: either the transfer raised — the log is the chunk
commits — or the stream completed and one `downloaded` row follows the
chunk commits.  Either way the run ends in the handler's uncaught
`AttributeError` branch, and the conversion call is never reached. -/
theorem download_file_shape (f0 : CogFile) (tb : TransferBehavior) (tr : TransformBehavior) :
    ((download_file (some f0) tb tr).log = tlLog (transferLoop tb.chunks f0 []) ∨
      ∃ f1 log, transferLoop tb.chunks f0 [] = .ok (f1, log) ∧
        (download_file (some f0) tb tr).log =
          log ++ [({ f1 with status := "downloaded" } : CogFile).toRow]) ∧
    (download_file (some f0) tb tr).result = .uncaught (.attributeError "error") ∧
    (download_file (some f0) tb tr).transformRan = false := by
  obtain ⟨chunks, failsAfter⟩ := tb
  simp only [download_file]
  cases hloop : transferLoop chunks f0 [] with
  | error ef =>
    obtain ⟨e, f1, log⟩ := ef
    refine ⟨.inl ?_, rfl, rfl⟩
    simp [tlLog, exceptHandler, Status.attr]
  | ok pr =>
    obtain ⟨f1, log⟩ := pr
    cases failsAfter with
    | true =>
      refine ⟨.inl ?_, rfl, rfl⟩
      simp [tlLog, exceptHandler, Status.attr]
    | false =>
      refine ⟨.inr ⟨f1, log, rfl, ?_⟩, rfl, rfl⟩
      simp [afterTransfer, exceptHandler, Status.attr, STATUS]

/-- For a job started on a `downloading` record, every row the pipeline ever
commits carries status `downloading` or `downloaded`. -/
theorem download_file_log_statuses (f0 : CogFile) (tb : TransferBehavior)
    (tr : TransformBehavior) (h : f0.status = "downloading") :
    ∀ r ∈ (download_file (some f0) tb tr).log,
      Row.col r "status" = some (.s "downloading") ∨
      Row.col r "status" = some (.s "downloaded") := by
  intro r hr
  rcases (download_file_shape f0 tb tr).1 with hl | ⟨f1, log, hloop, hl⟩
  · rw [hl] at hr
    rcases transferLoop_rows tb.chunks f0 [] r hr with hmem | ⟨b, p, rfl⟩
    · cases hmem
    · left
      rw [toRow_col_status]
      simp [h]
  · rw [hl] at hr
    rcases List.mem_append.1 hr with hmem | hmem
    · have hm : r ∈ tlLog (transferLoop tb.chunks f0 []) := by rw [hloop]; exact hmem
      rcases transferLoop_rows tb.chunks f0 [] r hm with hmem' | ⟨b, p, rfl⟩
      · cases hmem'
      · left
        rw [toRow_col_status]
        simp [h]
    · right
      rw [List.mem_singleton.1 hmem, toRow_col_status]

/-- On a record whose fraction is the derived one and whose declared total is
nonzero, the chunk loop succeeds, leaves the counter at the running total
and the fraction at the derived value, and commits one row per chunk with
exactly the running totals and their derived fractions. -/
theorem transferLoop_ok_formula (chunks : List ℕ) :
    ∀ (f : CogFile) (log : List Row),
      f.total_size_bytes ≠ 0 →
      f.download_pct = (f.downloaded_bytes : ℚ) / (f.total_size_bytes : ℚ) →
      transferLoop chunks f log = .ok
        ({ f with
            downloaded_bytes := f.downloaded_bytes + natSum chunks,
            download_pct :=
              ((f.downloaded_bytes + (natSum chunks : ℤ) : ℤ) : ℚ) /
                (f.total_size_bytes : ℚ) },
          log ++ (runningTotalsFrom f.downloaded_bytes chunks).map
            (fun b => ({ f with
                downloaded_bytes := b,
                download_pct := (b : ℚ) / (f.total_size_bytes : ℚ) } : CogFile).toRow)) := by
  induction chunks with
  | nil =>
    intro f log h0 hpct
    obtain ⟨u, a, rq, da, st, t, b, p⟩ := f
    simp only [transferLoop, natSum, runningTotalsFrom, List.map_nil, List.append_nil] at *
    simp_all
  | cons n rest ih =>
    intro f log h0 hpct
    simp only [transferLoop, chunkStep, pyDiv, if_neg h0]
    rw [ih { f with
              downloaded_bytes := f.downloaded_bytes + (n : ℤ),
              download_pct := ((f.downloaded_bytes + (n : ℤ) : ℤ) : ℚ) /
                (f.total_size_bytes : ℚ) }
          (log ++ [({ f with
              downloaded_bytes := f.downloaded_bytes + (n : ℤ),
              download_pct := ((f.downloaded_bytes + (n : ℤ) : ℤ) : ℚ) /
                (f.total_size_bytes : ℚ) } : CogFile).toRow]) h0 rfl]
    simp only [natSum, runningTotalsFrom, List.map_cons, List.append_assoc,
      List.singleton_append, Except.ok.injEq]
    have harith : f.downloaded_bytes + (n : ℤ) + ((natSum rest : ℕ) : ℤ) =
        f.downloaded_bytes + ((n + natSum rest : ℕ) : ℤ) := by push_cast; ring
    rw [harith]

/-- `runningTotalsFrom` of a nonempty chunk list ends at the grand total. -/
theorem runningTotalsFrom_getLast (chunks : List ℕ) :
    ∀ acc : ℤ, chunks ≠ [] →
      (runningTotalsFrom acc chunks).getLast? = some (acc + natSum chunks) := by
  induction chunks with
  | nil => intro acc h; exact absurd rfl h
  | cons n rest ih =>
    intro acc _
    cases hrest : rest with
    | nil => simp [runningTotalsFrom, natSum]
    | cons m rest2 =>
      have hne : rest ≠ [] := by rw [hrest]; exact List.cons_ne_nil m rest2
      rw [← hrest]
      simp only [runningTotalsFrom]
      rw [hrest]
      simp only [runningTotalsFrom, List.getLast?_cons_cons]
      rw [← runningTotalsFrom]
      rw [← hrest, ih (acc + n) hne]
      simp only [natSum, Option.some.injEq]
      push_cast
      ring

/-! ## Progress Tracker lemmas (claim C3) -/

theorem drop_length_takeWhile (p : Char → Bool) (cs : List Char) :
    cs.drop (cs.takeWhile p).length = cs.dropWhile p := by
  induction cs with
  | nil => rfl
  | cons c t ih =>
    by_cases h : p c
    · simp [List.takeWhile_cons, List.dropWhile_cons, h, ih]
    · simp [List.takeWhile_cons, List.dropWhile_cons, h]

/-- `takeWhile` of a run followed by a non-`p` head is exactly the run. -/
theorem takeWhile_run {p : Char → Bool} {d r : List Char}
    (hd : ∀ c ∈ d, p c) (hr : ∀ c, r.head? = some c → p c = false) :
    (d ++ r).takeWhile p = d := by
  rw [List.takeWhile_append_of_pos hd]
  cases r with
  | nil => simp
  | cons c t =>
    have := hr c rfl
    simp [List.takeWhile_cons, this]

/-- Inversion for the `[ ]?%` tail matcher. -/
theorem spacePct_inv {xs : List Char} {kk : ℕ} (h : spacePct xs = some kk) :
    (kk = 1 ∧ ∃ t, xs = '%' :: t) ∨ (kk = 2 ∧ ∃ t, xs = ' ' :: '%' :: t) := by
  unfold spacePct at h
  split at h
  · exact .inl ⟨(Option.some.inj h).symm, _, rfl⟩
  · exact .inr ⟨(Option.some.inj h).symm, _, rfl⟩
  · cases h

/-- Tokens are built exactly from the grammar's pieces. -/
theorem isTok_make (d1 : List Char) (d2 : Option (List Char)) (sp : List Char)
    (h1 : d1 ≠ []) (h2 : d1.all Char.isDigit = true)
    (h3 : ∀ ds, d2 = some ds → ds ≠ [] ∧ ds.all Char.isDigit = true)
    (h4 : sp = [] ∨ sp = [' ']) :
    IsTok (d1 ++ midPart d2 ++ sp ++ ['%']) (numVal d1 d2) :=
  ⟨d1, d2, sp, h1, h2, h3, h4, rfl, rfl⟩

/-- A nonempty `takeWhile` run: its members satisfy the predicate. -/
theorem takeWhile_all (p : Char → Bool) (cs : List Char) :
    (cs.takeWhile p).all p = true :=
  List.all_eq_true.2 fun _ hc => List.mem_takeWhile_imp hc

/-- A successful anchored match of the regex yields a token of the
(space-allowing) grammar as the matched prefix, with the match's value. -/
theorem matchAt_some {cs : List Char} {v : ℚ} {k : ℕ} (h : matchAt cs = some (v, k)) :
    IsTok (cs.take k) v ∧ 1 ≤ k ∧ k ≤ cs.length := by
  have hsplit : cs = cs.takeWhile Char.isDigit ++ cs.dropWhile Char.isDigit :=
    (List.takeWhile_append_dropWhile Char.isDigit cs).symm
  simp only [matchAt] at h
  split at h
  · cases h
  next hA =>
    have hd1ne : cs.takeWhile Char.isDigit ≠ [] := by
      intro hnil
      simp [hnil] at hA
    rw [drop_length_takeWhile] at h
    split at h
    next rest2 heq1 =>
      -- decimal branch: dropWhile = '.' :: rest2
      have hrest2 : rest2 = rest2.takeWhile Char.isDigit ++ rest2.dropWhile Char.isDigit :=
        (List.takeWhile_append_dropWhile Char.isDigit rest2).symm
      split at h
      · cases h
      next hB =>
        have hd2ne : rest2.takeWhile Char.isDigit ≠ [] := by
          intro hnil
          simp [hnil] at hB
        rw [drop_length_takeWhile] at h
        split at h
        next kk heq2 =>
          simp only [Option.some.injEq, Prod.mk.injEq] at h
          obtain ⟨rfl, rfl⟩ := h
          rcases spacePct_inv heq2 with ⟨rfl, t, ht⟩ | ⟨rfl, t, ht⟩
          · -- sp = [], tail '%' :: t
            have hcs : cs = (cs.takeWhile Char.isDigit ++
                midPart (some (rest2.takeWhile Char.isDigit)) ++ [] ++ ['%']) ++ t := by
              conv_lhs => rw [hsplit, heq1]
              conv_lhs => rw [hrest2, ht]
              simp [midPart]
            have hlen : cs.length = (cs.takeWhile Char.isDigit ++
                midPart (some (rest2.takeWhile Char.isDigit)) ++ [] ++ ['%']).length + t.length := by
              conv_lhs => rw [hcs]
              simp
              omega
            have htake : cs.take ((cs.takeWhile Char.isDigit).length + 1 +
                (rest2.takeWhile Char.isDigit).length + 1) =
                cs.takeWhile Char.isDigit ++
                  midPart (some (rest2.takeWhile Char.isDigit)) ++ [] ++ ['%'] := by
              conv_lhs =>
                arg 2
                rw [hcs]
              exact List.take_left' (by simp [midPart]; omega)
            refine ⟨?_, by omega, ?_⟩
            · rw [htake]
              exact isTok_make _ (some (rest2.takeWhile Char.isDigit)) []
                hd1ne (takeWhile_all _ _)
                (fun ds hds => by
                  cases hds
                  exact ⟨hd2ne, takeWhile_all _ _⟩)
                (.inl rfl)
            · simp [midPart] at hlen
              omega
          · -- sp = [' '], tail ' ' :: '%' :: t
            have hcs : cs = (cs.takeWhile Char.isDigit ++
                midPart (some (rest2.takeWhile Char.isDigit)) ++ [' '] ++ ['%']) ++ t := by
              conv_lhs => rw [hsplit, heq1]
              conv_lhs => rw [hrest2, ht]
              simp [midPart]
            have hlen : cs.length = (cs.takeWhile Char.isDigit ++
                midPart (some (rest2.takeWhile Char.isDigit)) ++ [' '] ++ ['%']).length + t.length := by
              conv_lhs => rw [hcs]
              simp
              omega
            have htake : cs.take ((cs.takeWhile Char.isDigit).length + 1 +
                (rest2.takeWhile Char.isDigit).length + 2) =
                cs.takeWhile Char.isDigit ++
                  midPart (some (rest2.takeWhile Char.isDigit)) ++ [' '] ++ ['%'] := by
              conv_lhs =>
                arg 2
                rw [hcs]
              exact List.take_left' (by simp [midPart]; omega)
            refine ⟨?_, by omega, ?_⟩
            · rw [htake]
              exact isTok_make _ (some (rest2.takeWhile Char.isDigit)) [' ']
                hd1ne (takeWhile_all _ _)
                (fun ds hds => by
                  cases hds
                  exact ⟨hd2ne, takeWhile_all _ _⟩)
                (.inr rfl)
            · simp [midPart] at hlen
              omega
        · cases h
    next hnotdot =>
      -- plain branch: the regex tail matches right after the digits
      split at h
      next kk heq2 =>
        simp only [Option.some.injEq, Prod.mk.injEq] at h
        obtain ⟨rfl, rfl⟩ := h
        rcases spacePct_inv heq2 with ⟨rfl, t, ht⟩ | ⟨rfl, t, ht⟩
        · have hcs : cs = (cs.takeWhile Char.isDigit ++ midPart none ++ [] ++ ['%']) ++ t := by
            conv_lhs => rw [hsplit, ht]
            simp [midPart]
          have hlen : cs.length =
              (cs.takeWhile Char.isDigit ++ midPart none ++ [] ++ ['%']).length + t.length := by
            conv_lhs => rw [hcs]
            simp
            omega
          have htake : cs.take ((cs.takeWhile Char.isDigit).length + 1) =
              cs.takeWhile Char.isDigit ++ midPart none ++ [] ++ ['%'] := by
            conv_lhs =>
              arg 2
              rw [hcs]
            exact List.take_left' (by simp [midPart])
          refine ⟨?_, by omega, ?_⟩
          · rw [htake]
            exact isTok_make _ none [] hd1ne (takeWhile_all _ _)
              (fun ds hds => by cases hds) (.inl rfl)
          · simp [midPart] at hlen
            omega
        · have hcs : cs = (cs.takeWhile Char.isDigit ++ midPart none ++ [' '] ++ ['%']) ++ t := by
            conv_lhs => rw [hsplit, ht]
            simp [midPart]
          have hlen : cs.length =
              (cs.takeWhile Char.isDigit ++ midPart none ++ [' '] ++ ['%']).length + t.length := by
            conv_lhs => rw [hcs]
            simp
            omega
          have htake : cs.take ((cs.takeWhile Char.isDigit).length + 2) =
              cs.takeWhile Char.isDigit ++ midPart none ++ [' '] ++ ['%'] := by
            conv_lhs =>
              arg 2
              rw [hcs]
            exact List.take_left' (by simp [midPart])
          refine ⟨?_, by omega, ?_⟩
          · rw [htake]
            exact isTok_make _ none [' '] hd1ne (takeWhile_all _ _)
              (fun ds hds => by cases hds) (.inr rfl)
          · simp [midPart] at hlen
            omega
      · cases h

/-- Conversely, a grammar token sitting as a prefix of `cs` is found by the
anchored regex match, with the same value and length. -/
theorem tok_matchAt {cs : List Char} {l : ℕ} {v : ℚ}
    (htok : IsTok (cs.take l) v) (hl : l ≤ cs.length) :
    matchAt cs = some (v, l) := by
  obtain ⟨d1, d2, sp, hne, hdig, hd2, hsp, heq, rfl⟩ := htok
  have hlen_take : (cs.take l).length = l := by
    rw [List.length_take]
    omega
  have hdigit : ∀ c ∈ d1, Char.isDigit c := fun c hc => List.all_eq_true.1 hdig c hc
  have hd1e : d1.isEmpty = false := by
    cases d1
    · exact absurd rfl hne
    · rfl
  rcases hsp with rfl | rfl
  · cases d2 with
    | none =>
      simp only [midPart, List.append_nil] at heq
      rw [heq] at hlen_take
      simp only [List.length_append, List.length_cons, List.length_nil] at hlen_take
      have hcs : cs = d1 ++ '%' :: cs.drop l := by
        conv_lhs => rw [← List.take_append_drop l cs]
        rw [heq]
        simp
      have htw : cs.takeWhile Char.isDigit = d1 := by
        conv_lhs => rw [hcs]
        exact takeWhile_run hdigit (by
          intro c hc
          simp only [List.head?_cons, Option.some.injEq] at hc
          subst hc
          decide)
      have hdrop : cs.drop d1.length = '%' :: cs.drop l := by
        conv_lhs =>
          arg 2
          rw [hcs]
        exact List.drop_left d1 _
      simp only [matchAt]
      rw [htw, hdrop, if_neg (show ¬(d1.isEmpty = true) by simp [hd1e])]
      split
      next rest2 heqm =>
        injection heqm with h1 h2
        exact absurd h1 (by decide)
      next =>
        show some (numVal d1 none, d1.length + 1) = some (numVal d1 none, l)
        simp only [Option.some.injEq, Prod.mk.injEq, true_and]
        omega
    | some ds =>
      simp only [midPart] at heq
      obtain ⟨hd2ne, hd2dig⟩ := hd2 ds rfl
      have hdsdigit : ∀ c ∈ ds, Char.isDigit c := fun c hc => List.all_eq_true.1 hd2dig c hc
      rw [heq] at hlen_take
      simp only [List.length_append, List.length_cons, List.length_nil] at hlen_take
      have hcs : cs = d1 ++ '.' :: (ds ++ '%' :: cs.drop l) := by
        conv_lhs => rw [← List.take_append_drop l cs]
        rw [heq]
        simp
      have htw : cs.takeWhile Char.isDigit = d1 := by
        conv_lhs => rw [hcs]
        exact takeWhile_run hdigit (by
          intro c hc
          simp only [List.head?_cons, Option.some.injEq] at hc
          subst hc
          decide)
      have hdrop : cs.drop d1.length = '.' :: (ds ++ '%' :: cs.drop l) := by
        conv_lhs =>
          arg 2
          rw [hcs]
        exact List.drop_left d1 _
      have htw2 : (ds ++ '%' :: cs.drop l).takeWhile Char.isDigit = ds :=
        takeWhile_run hdsdigit (by
          intro c hc
          simp only [List.head?_cons, Option.some.injEq] at hc
          subst hc
          decide)
      have hds : ds.isEmpty = false := by
        cases ds
        · exact absurd rfl hd2ne
        · rfl
      have hdrop2 : (ds ++ '%' :: cs.drop l).drop ds.length = '%' :: cs.drop l :=
        List.drop_left ds _
      simp only [matchAt]
      rw [htw, hdrop, if_neg (show ¬(d1.isEmpty = true) by simp [hd1e])]
      split
      next rest2 heqm =>
        injection heqm with h1 h2
        subst h2
        rw [htw2, hds, hdrop2]
        show some (numVal d1 (some ds), d1.length + 1 + ds.length + 1) =
          some (numVal d1 (some ds), l)
        simp only [Option.some.injEq, Prod.mk.injEq, true_and]
        omega
      next hno =>
        exact absurd rfl (hno (ds ++ '%' :: cs.drop l))
  · cases d2 with
    | none =>
      simp only [midPart] at heq
      rw [heq] at hlen_take
      simp only [List.length_append, List.length_cons, List.length_nil] at hlen_take
      have hcs : cs = d1 ++ ' ' :: '%' :: cs.drop l := by
        conv_lhs => rw [← List.take_append_drop l cs]
        rw [heq]
        simp
      have htw : cs.takeWhile Char.isDigit = d1 := by
        conv_lhs => rw [hcs]
        exact takeWhile_run hdigit (by
          intro c hc
          simp only [List.head?_cons, Option.some.injEq] at hc
          subst hc
          decide)
      have hdrop : cs.drop d1.length = ' ' :: '%' :: cs.drop l := by
        conv_lhs =>
          arg 2
          rw [hcs]
        exact List.drop_left d1 _
      simp only [matchAt]
      rw [htw, hdrop, if_neg (show ¬(d1.isEmpty = true) by simp [hd1e])]
      split
      next rest2 heqm =>
        injection heqm with h1 h2
        exact absurd h1 (by decide)
      next =>
        show some (numVal d1 none, d1.length + 2) = some (numVal d1 none, l)
        simp only [Option.some.injEq, Prod.mk.injEq, true_and]
        omega
    | some ds =>
      simp only [midPart] at heq
      obtain ⟨hd2ne, hd2dig⟩ := hd2 ds rfl
      have hdsdigit : ∀ c ∈ ds, Char.isDigit c := fun c hc => List.all_eq_true.1 hd2dig c hc
      rw [heq] at hlen_take
      simp only [List.length_append, List.length_cons, List.length_nil] at hlen_take
      have hcs : cs = d1 ++ '.' :: (ds ++ ' ' :: '%' :: cs.drop l) := by
        conv_lhs => rw [← List.take_append_drop l cs]
        rw [heq]
        simp
      have htw : cs.takeWhile Char.isDigit = d1 := by
        conv_lhs => rw [hcs]
        exact takeWhile_run hdigit (by
          intro c hc
          simp only [List.head?_cons, Option.some.injEq] at hc
          subst hc
          decide)
      have hdrop : cs.drop d1.length = '.' :: (ds ++ ' ' :: '%' :: cs.drop l) := by
        conv_lhs =>
          arg 2
          rw [hcs]
        exact List.drop_left d1 _
      have htw2 : (ds ++ ' ' :: '%' :: cs.drop l).takeWhile Char.isDigit = ds :=
        takeWhile_run hdsdigit (by
          intro c hc
          simp only [List.head?_cons, Option.some.injEq] at hc
          subst hc
          decide)
      have hds : ds.isEmpty = false := by
        cases ds
        · exact absurd rfl hd2ne
        · rfl
      have hdrop2 : (ds ++ ' ' :: '%' :: cs.drop l).drop ds.length = ' ' :: '%' :: cs.drop l :=
        List.drop_left ds _
      simp only [matchAt]
      rw [htw, hdrop, if_neg (show ¬(d1.isEmpty = true) by simp [hd1e])]
      split
      next rest2 heqm =>
        injection heqm with h1 h2
        subst h2
        rw [htw2, hds, hdrop2]
        show some (numVal d1 (some ds), d1.length + 1 + ds.length + 2) =
          some (numVal d1 (some ds), l)
        simp only [Option.some.injEq, Prod.mk.injEq, true_and]
        omega
      next hno =>
        exact absurd rfl (hno (ds ++ ' ' :: '%' :: cs.drop l))

/-- `matchAt` on the empty list fails. -/
theorem matchAt_nil : matchAt [] = none := rfl

/-- A match consumes at least one character. -/
theorem matchAt_pos {cs : List Char} {v : ℚ} {k : ℕ}
    (h : matchAt cs = some (v, k)) : 1 ≤ k :=
  (matchAt_some h).2.1

/-- The scan finds nothing exactly when no position admits a match. -/
theorem scanGo_eq_nil_iff (fuel : ℕ) : ∀ cs : List Char, cs.length ≤ fuel →
    (scanGo fuel cs = [] ↔ ∀ i, matchAt (cs.drop i) = none) := by
  induction fuel with
  | zero =>
    intro cs hcs
    have hnil : cs = [] := List.length_eq_zero.1 (Nat.le_zero.1 hcs)
    subst hnil
    simp [scanGo, matchAt_nil]
  | succ fuel ih =>
    intro cs hcs
    cases cs with
    | nil => simp [scanGo, matchAt_nil]
    | cons c cs' =>
      simp only [scanGo]
      cases hm : matchAt (c :: cs') with
      | some pr =>
        obtain ⟨v, k⟩ := pr
        constructor
        · intro h
          cases h
        · intro h
          have h0 := h 0
          rw [List.drop_zero] at h0
          rw [h0] at hm
          cases hm
      | none =>
        rw [ih cs' (by simpa using Nat.le_of_succ_le_succ hcs)]
        constructor
        · intro h i
          cases i with
          | zero => simpa using hm
          | succ j => simpa using h j
        · intro h j
          have := h (j + 1)
          simpa using this

/-- The last scanned value comes from a match after whose end nothing
matches any more. -/
theorem scanGo_getLast (fuel : ℕ) : ∀ (cs : List Char) (v : ℚ), cs.length ≤ fuel →
    (scanGo fuel cs).getLast? = some v →
    ∃ i k, matchAt (cs.drop i) = some (v, k) ∧
      ∀ j, i + k ≤ j → matchAt (cs.drop j) = none := by
  induction fuel with
  | zero =>
    intro cs v hcs h
    simp [scanGo] at h
  | succ fuel ih =>
    intro cs v hcs h
    cases cs with
    | nil => simp [scanGo] at h
    | cons c cs' =>
      simp only [scanGo] at h
      cases hm : matchAt (c :: cs') with
      | none =>
        rw [hm] at h
        obtain ⟨i, k, h1, h2⟩ :=
          ih cs' v (by simpa using Nat.le_of_succ_le_succ hcs) h
        refine ⟨i + 1, k, by simpa using h1, ?_⟩
        intro j hj
        cases j with
        | zero => exact absurd hj (by omega)
        | succ j' =>
          have := h2 j' (by omega)
          simpa using this
      | some pr =>
        obtain ⟨v0, k0⟩ := pr
        rw [hm] at h
        have h' : (v0 :: scanGo fuel ((c :: cs').drop k0)).getLast? = some v := h
        have hk0 : 1 ≤ k0 := matchAt_pos hm
        have hlen : ((c :: cs').drop k0).length ≤ fuel := by
          rw [List.length_drop]
          simp only [List.length_cons] at hcs ⊢
          omega
        cases htail : scanGo fuel ((c :: cs').drop k0) with
        | nil =>
          rw [htail] at h'
          simp only [List.getLast?_singleton, Option.some.injEq] at h'
          subst h'
          refine ⟨0, k0, by simpa using hm, ?_⟩
          intro j hj
          have hnone := (scanGo_eq_nil_iff fuel _ hlen).1 htail (j - k0)
          rw [List.drop_drop] at hnone
          rw [show k0 + (j - k0) = j from by omega] at hnone
          exact hnone
        | cons w ws =>
          rw [htail, List.getLast?_cons_cons, ← htail] at h'
          obtain ⟨i', k', h1, h2⟩ := ih _ v hlen h'
          rw [List.drop_drop] at h1
          refine ⟨k0 + i', k', h1, ?_⟩
          intro j hj
          have := h2 (j - k0) (by omega)
          rw [List.drop_drop] at this
          rw [show k0 + (j - k0) = j from by omega] at this
          exact this

/-- A token is nonempty. -/
theorem isTok_length_pos {t : List Char} {v : ℚ} (h : IsTok t v) : 1 ≤ t.length := by
  obtain ⟨d1, d2, sp, -, -, -, -, rfl, -⟩ := h
  simp only [List.length_append, List.length_cons, List.length_nil]
  omega

/-- The percent sign occurs in a token only as its final character. -/
theorem isTok_pct_last {t : List Char} {v : ℚ} (h : IsTok t v) {m : ℕ}
    (hm : t[m]? = some '%') : m = t.length - 1 := by
  obtain ⟨d1, d2, sp, hne, hdig, hd2, hsp, rfl, -⟩ := h
  have hassoc : d1 ++ midPart d2 ++ sp ++ ['%'] = (d1 ++ midPart d2 ++ sp) ++ ['%'] := by
    simp
  rw [hassoc] at hm ⊢
  have hnotin : '%' ∉ d1 ++ midPart d2 ++ sp := by
    intro hin
    rcases List.mem_append.1 hin with hin | hin
    · rcases List.mem_append.1 hin with hin | hin
      · exact absurd (List.all_eq_true.1 hdig _ hin) (by decide)
      · cases d2 with
        | none => simp [midPart] at hin
        | some ds =>
          simp only [midPart, List.mem_cons] at hin
          rcases hin with h1 | hin
          · exact absurd h1 (by decide)
          · exact absurd (List.all_eq_true.1 (hd2 ds rfl).2 _ hin) (by decide)
    · rcases hsp with rfl | rfl
      · simp at hin
      · simp only [List.mem_singleton] at hin
        exact absurd hin (by decide)
  rw [List.getElem?_append] at hm
  split at hm
  · exact absurd (List.getElem?_mem hm) hnotin
  next hge =>
    push_neg at hge
    have hm0 : m - (d1 ++ midPart d2 ++ sp).length = 0 := by
      by_contra hne0
      rw [List.getElem?_cons, if_neg hne0] at hm
      simp at hm
    have hlen2 : (d1 ++ midPart d2 ++ sp).length =
        d1.length + (midPart d2).length + sp.length := by
      simp
      omega
    simp only [List.length_append, List.length_cons, List.length_nil]
    omega

/-- A match found at a position is a token at that position. -/
theorem tokAt_of_matchAt {cs : List Char} {i k : ℕ} {v : ℚ}
    (h : matchAt (cs.drop i) = some (v, k)) : TokAt cs i k v := by
  obtain ⟨htok, hk1, hk2⟩ := matchAt_some h
  refine ⟨htok, ?_⟩
  rw [List.length_drop] at hk2
  by_cases hi : i ≤ cs.length
  · omega
  · exfalso
    rw [List.drop_eq_nil_of_le (by omega)] at h
    rw [matchAt_nil] at h
    cases h

/-- A token at a position is found by the match at that position. -/
theorem matchAt_of_tokAt {cs : List Char} {i l : ℕ} {v : ℚ} (h : TokAt cs i l v) :
    matchAt (cs.drop i) = some (v, l) := by
  obtain ⟨htok, hil⟩ := h
  exact tok_matchAt htok (by rw [List.length_drop]; omega)

/-- The character a token at a position puts at its final place. -/
theorem tokAt_pct_char {cs : List Char} {i l : ℕ} {v : ℚ} (h : TokAt cs i l v) :
    cs[i + l - 1]? = some '%' := by
  obtain ⟨htok, hil⟩ := h
  have hlen : ((cs.drop i).take l).length = l := by
    rw [List.length_take, List.length_drop]
    omega
  have hpos : 1 ≤ l := hlen ▸ isTok_length_pos htok
  have hlast : ((cs.drop i).take l)[l - 1]? = some '%' := by
    obtain ⟨d1, d2, sp, hne, hdig, hd2, hsp, heq, -⟩ := htok
    rw [heq]
    rw [show d1 ++ midPart d2 ++ sp ++ ['%'] = (d1 ++ midPart d2 ++ sp) ++ ['%'] from by simp]
    have hul : (d1 ++ midPart d2 ++ sp).length = l - 1 := by
      have := hlen
      rw [heq] at this
      simp only [List.length_append, List.length_cons, List.length_nil] at this ⊢
      omega
    rw [List.getElem?_append]
    rw [if_neg (by omega), hul]
    simp
  rw [List.getElem?_take, if_pos (by omega : l - 1 < l)] at hlast
  rw [List.getElem?_drop] at hlast
  rw [show i + (l - 1) = i + l - 1 from by omega] at hlast
  exact hlast

/-- Interior characters of a token at a position are not percent signs. -/
theorem tokAt_interior {cs : List Char} {i l : ℕ} {v : ℚ} (h : TokAt cs i l v)
    {m : ℕ} (hm : m < l - 1) : cs[i + m]? ≠ some '%' := by
  obtain ⟨htok, hil⟩ := h
  have hlen : ((cs.drop i).take l).length = l := by
    rw [List.length_take, List.length_drop]
    omega
  intro hpct
  have hidx : ((cs.drop i).take l)[m]? = some '%' := by
    rw [List.getElem?_take, if_pos (by omega : m < l), List.getElem?_drop]
    exact hpct
  have := isTok_pct_last htok hidx
  rw [hlen] at this
  omega

/-! ## Claim theorems -/

/-- C1: the claim says states move forward along
`downloading → downloaded → processing → ready`, with `error` reachable from
any non-terminal state.  In the code, `Status` declares neither `processing`
nor `ready` nor `error`: every such attribute access raises
`AttributeError`, so for any job started on a `downloading` record, every
committed status is `downloading` or `downloaded` — `error` (like
`processing` and `ready`) is unreachable, contradicting the claim's
reachability part. -/
theorem C1_error_state_unreachable (f0 : CogFile) (tb : TransferBehavior)
    (tr : TransformBehavior) (h : f0.status = "downloading") :
    (Status.attr STATUS "error" = none ∧ Status.attr STATUS "processing" = none ∧
      Status.attr STATUS "ready" = none) ∧
    ((download_file (some f0) tb tr).log.all fun r =>
      Row.col r "status" == some (.s "downloading") ||
        Row.col r "status" == some (.s "downloaded")) = true := by
  refine ⟨⟨rfl, rfl, rfl⟩, List.all_eq_true.2 ?_⟩
  intro r hr
  rcases download_file_log_statuses f0 tb tr h r hr with h1 | h1 <;>
    simp [h1]

/-- C1 witness: a concrete run whose transfer stream fails immediately. -/
theorem C1_witness :
    sampleDownloading.status = "downloading" ∧
    ((Status.attr STATUS "error" = none ∧ Status.attr STATUS "processing" = none ∧
      Status.attr STATUS "ready" = none) ∧
    ((download_file (some sampleDownloading) ⟨[], true⟩ .ok).log.all fun r =>
      Row.col r "status" == some (.s "downloading") ||
        Row.col r "status" == some (.s "downloaded")) = true) :=
  ⟨rfl, C1_error_state_unreachable sampleDownloading ⟨[], true⟩ .ok rfl⟩

/-- C2: the claim says a stage exception is caught, recorded as `error`, and
not re-raised.  In the code the handler's own `metadata.status = STATUS.error`
raises `AttributeError` (`Status` has no `error` field), so every failing job
re-raises an uncaught exception and no committed row ever carries status
`error`. -/
theorem C2_stage_failure_reraised (f0 : CogFile) (chunks : List ℕ)
    (tr : TransformBehavior) (h : f0.status = "downloading") :
    (download_file (some f0) ⟨chunks, true⟩ tr).result =
      .uncaught (.attributeError "error") ∧
    ((download_file (some f0) ⟨chunks, true⟩ tr).log.all fun r =>
      Row.col r "status" != some (.s "error")) = true := by
  refine ⟨(download_file_shape f0 ⟨chunks, true⟩ tr).2.1, List.all_eq_true.2 ?_⟩
  intro r hr
  rcases download_file_log_statuses f0 ⟨chunks, true⟩ tr h r hr with h1 | h1 <;>
    simp [h1]

/-- C2 witness: a concrete failing transfer (non-2xx response, no chunks). -/
theorem C2_witness :
    sampleDownloading.status = "downloading" ∧
    ((download_file (some sampleDownloading) ⟨[], true⟩ .ok).result =
      .uncaught (.attributeError "error") ∧
    ((download_file (some sampleDownloading) ⟨[], true⟩ .ok).log.all fun r =>
      Row.col r "status" != some (.s "error")) = true) :=
  ⟨rfl, C2_stage_failure_reraised sampleDownloading [] .ok rfl⟩

/-- C8: the claim speaks of a transform raising mid-run with `convert_fraction`
retained and status moved to `error`.  In the code the job can never reach
the transform call: the preceding `metadata.status = STATUS.processing`
raises (`Status` has no `processing` field), the handler raises again on
`STATUS.error`, and no committed row ever carries status `error`. -/
theorem C8_transform_never_reached (f0 : CogFile) (tb : TransferBehavior)
    (tr : TransformBehavior) (h : f0.status = "downloading") :
    (download_file (some f0) tb tr).transformRan = false ∧
    ((download_file (some f0) tb tr).log.all fun r =>
      Row.col r "status" != some (.s "error")) = true := by
  refine ⟨(download_file_shape f0 tb tr).2.2, List.all_eq_true.2 ?_⟩
  intro r hr
  rcases download_file_log_statuses f0 tb tr h r hr with h1 | h1 <;>
    simp [h1]

/-- C8 witness: a run whose transfer succeeds and whose transform stage would
raise — the conversion call is still never reached. -/
theorem C8_witness :
    sampleDownloading.status = "downloading" ∧
    ((download_file (some sampleDownloading) ⟨[], false⟩ .raises).transformRan = false ∧
    ((download_file (some sampleDownloading) ⟨[], false⟩ .raises).log.all fun r =>
      Row.col r "status" != some (.s "error")) = true) :=
  ⟨rfl, C8_transform_never_reached sampleDownloading ⟨[], false⟩ .raises rfl⟩

/-- C4: the claim says a second registration for a url with a live
(non-`error`) record is refused with a caller-visible conflict.  In the
code, the duplicate check `f.status != STATUS.error` looks up the `error`
attribute on a `Status` named tuple that does not declare it, so whenever a
record exists — whatever its state — the handler dies with an uncaught
`AttributeError` (an HTTP 500), never the 409 conflict.  No job is created
and no record is written. -/
theorem C4_duplicate_registration_crashes (f : CogFile) (head : HeadResult)
    (url path : String) (now : ℕ) :
    file_download (some f) head url path now =
      { response := .serverError (.attributeError "error"), newRecord := none,
        jobEnqueued := false } := rfl

/-- C9: the claim says registering a url whose record is in `error` state
succeeds and yields a fresh `downloading` record with zeroed counters.  In
the code the admission check itself evaluates `STATUS.error`, which raises
`AttributeError`, so the request fails with an uncaught exception: no new
record, no job. -/
theorem C9_error_state_reregistration_crashes (f : CogFile) (head : HeadResult)
    (url path : String) (now : ℕ) (h : f.status = "error") :
    file_download (some f) head url path now =
      { response := .serverError (.attributeError "error"), newRecord := none,
        jobEnqueued := false } := rfl

/-- C9 witness: the theorem applied to a concrete `error`-state record. -/
theorem C9_witness :
    sampleError.status = "error" ∧
    file_download (some sampleError) .timeout "http://example.com/a.tif" "/data/a.tif" 0 =
      { response := .serverError (.attributeError "error"), newRecord := none,
        jobEnqueued := false } :=
  ⟨rfl, C9_error_state_reregistration_crashes sampleError .timeout
    "http://example.com/a.tif" "/data/a.tif" 0 rfl⟩

/-- C3 counterexample: the claim says the parser returns a value only for a
number *immediately* followed by a percent sign, and `None` when no such
substring exists.  The buffer `"50 %"` contains no such substring, yet the
regex `\d+(?:\.\d+)?[ ]?%` tolerates one space before the sign, so the code
returns `0.5`, not `None`. -/
theorem C3_counterexample :
    containsImmediateNumPct "50 %" = false ∧
    get_percentage_from_buffer "50 %" = some (1 / 2) := by
  refine ⟨by decide, ?_⟩
  rw [show get_percentage_from_buffer "50 %" = some (numVal ['5', '0'] none / 100) from rfl]
  norm_num [numVal, show digitsVal ['5', '0'] = 50 from by decide]

/-- C3 (amended): for every input string, the Progress Tracker returns the
value of the last left-to-right regex match of an integer-or-decimal number
followed by at most one space and then a percent sign, divided by 100; it
returns no value exactly when no position of the string carries such a
token; when it returns a value, that value is a token's value over 100 and
that token extends at least as far as every token in the string; and the
feed text `"...\nProcessing: 37.5%\nProcessing: 82%\n"` parses to `0.82`. -/
theorem C3_last_percentage :
    get_percentage_from_buffer "...\nProcessing: 37.5%\nProcessing: 82%\n" =
      some (41 / 50) ∧
    (∀ s : String, get_percentage_from_buffer s = none ↔
      ∀ i l v, ¬ TokAt s.data i l v) ∧
    (∀ (s : String) (q : ℚ), get_percentage_from_buffer s = some q →
      ∃ i l v, TokAt s.data i l v ∧ q = v / 100 ∧
        ∀ i' l' v', TokAt s.data i' l' v' → i' + l' ≤ i + l) := by
  refine ⟨?_, ?_, ?_⟩
  · rw [show get_percentage_from_buffer "...\nProcessing: 37.5%\nProcessing: 82%\n" =
        some (numVal ['8', '2'] none / 100) from rfl]
    norm_num [numVal, show digitsVal ['8', '2'] = 82 from by decide]
  · intro s
    unfold get_percentage_from_buffer
    rw [Option.map_eq_none', List.getLast?_eq_none_iff]
    unfold scanPct
    rw [scanGo_eq_nil_iff s.data.length s.data le_rfl]
    constructor
    · intro h i l v htok
      have hsome := matchAt_of_tokAt htok
      rw [h i] at hsome
      cases hsome
    · intro h j
      cases hm : matchAt (s.data.drop j) with
      | none => rfl
      | some pr =>
        obtain ⟨v, k⟩ := pr
        exact (h j k v (tokAt_of_matchAt hm)).elim
  · intro s q hq
    unfold get_percentage_from_buffer at hq
    obtain ⟨v, hv, hvq⟩ := Option.map_eq_some'.1 hq
    obtain ⟨i, k, h1, h2⟩ := scanGo_getLast s.data.length s.data v le_rfl hv
    refine ⟨i, k, v, tokAt_of_matchAt h1, hvq.symm, ?_⟩
    intro i' l' v' htok'
    by_cases hge : i + k ≤ i'
    · exfalso
      have hsome := matchAt_of_tokAt htok'
      rw [h2 i' hge] at hsome
      cases hsome
    · by_contra hlt
      push_neg at hlt
      have hk1 : 1 ≤ k := matchAt_pos h1
      have hpct : s.data[i + k - 1]? = some '%' := tokAt_pct_char (tokAt_of_matchAt h1)
      have hint : s.data[i' + (i + k - 1 - i')]? ≠ some '%' :=
        tokAt_interior htok' (by omega)
      rw [show i' + (i + k - 1 - i') = i + k - 1 from by omega] at hint
      exact hint hpct

/-- C3 witness: the amended theorem applied to the buffer `"50 %"`. -/
theorem C3_witness :
    get_percentage_from_buffer "...\nProcessing: 37.5%\nProcessing: 82%\n" =
      some (41 / 50) ∧
    (get_percentage_from_buffer "50 %" = none ↔
      ∀ i l v, ¬ TokAt "50 %".data i l v) ∧
    ∃ i l v, TokAt "50 %".data i l v ∧ (1 / 2 : ℚ) = v / 100 ∧
      ∀ i' l' v', TokAt "50 %".data i' l' v' → i' + l' ≤ i + l :=
  ⟨C3_last_percentage.1, C3_last_percentage.2.1 "50 %",
    C3_last_percentage.2.2 "50 %" (1 / 2)
      (by
        rw [show get_percentage_from_buffer "50 %" =
          some (numVal ['5', '0'] none / 100) from rfl]
        norm_num [numVal, show digitsVal ['5', '0'] = 50 from by decide])⟩

/-- C5: for every total size S > 0 and chunk sequence summing to S, the
transfer loop increments `downloaded_bytes` by each chunk's length and
persists the counter together with the recomputed
`download_pct = downloaded_bytes / total_size_bytes` before the next chunk:
the job's commit log contains one row per chunk carrying exactly the
running totals with their derived fractions, and the row committed after
the last chunk has `downloaded_bytes = S` and `download_pct = 1`. -/
theorem C5_chunk_accounting (f0 : CogFile) (S : ℤ) (chunks : List ℕ)
    (tr : TransformBehavior) (hS : 0 < S) (ht : f0.total_size_bytes = S)
    (hb : f0.downloaded_bytes = 0) (hp : f0.download_pct = 0)
    (hsum : (natSum chunks : ℤ) = S) :
    (download_file (some f0) ⟨chunks, false⟩ tr).log =
      ((runningTotalsFrom 0 chunks).map fun b =>
        ({ f0 with
            downloaded_bytes := b,
            download_pct := (b : ℚ) / (f0.total_size_bytes : ℚ) } : CogFile).toRow)
      ++ [({ f0 with
              downloaded_bytes := S,
              download_pct := 1,
              status := "downloaded" } : CogFile).toRow] ∧
    ((runningTotalsFrom 0 chunks).map fun b =>
        ({ f0 with
            downloaded_bytes := b,
            download_pct := (b : ℚ) / (f0.total_size_bytes : ℚ) } : CogFile).toRow).getLast?
      = some (({ f0 with
            downloaded_bytes := S,
            download_pct := 1 } : CogFile).toRow) := by
  have hS0 : S ≠ 0 := hS.ne'
  have h0 : f0.total_size_bytes ≠ 0 := by rw [ht]; exact hS0
  have hinv : f0.download_pct = (f0.downloaded_bytes : ℚ) / (f0.total_size_bytes : ℚ) := by
    rw [hb, hp]
    simp
  have hloop := transferLoop_ok_formula chunks f0 [] h0 hinv
  rw [hb, zero_add] at hloop
  rw [hsum] at hloop
  have hone : ((S : ℤ) : ℚ) / (f0.total_size_bytes : ℚ) = 1 := by
    rw [ht]
    exact div_self (Int.cast_ne_zero.2 hS0)
  rw [hone] at hloop
  have hne : chunks ≠ [] := by
    intro hemp
    subst hemp
    simp only [natSum, Int.natCast_zero] at hsum
    omega
  constructor
  · simp only [download_file, hloop]
    simp [afterTransfer, exceptHandler, Status.attr, STATUS]
  · rw [List.getLast?_map, runningTotalsFrom_getLast chunks 0 hne, zero_add]
    simp only [Option.map_some']
    rw [hsum, hone]

/-- C5 witness: a 10-byte file transferred in chunks of 4 and 6 bytes. -/
theorem C5_witness :
    (0 : ℤ) < 10 ∧ sampleDownloading.total_size_bytes = 10 ∧
    sampleDownloading.downloaded_bytes = 0 ∧ sampleDownloading.download_pct = 0 ∧
    (natSum [4, 6] : ℤ) = 10 ∧
    ((download_file (some sampleDownloading) ⟨[4, 6], false⟩ .ok).log =
      ((runningTotalsFrom 0 [4, 6]).map fun b =>
        ({ sampleDownloading with
            downloaded_bytes := b,
            download_pct := (b : ℚ) / (sampleDownloading.total_size_bytes : ℚ) } : CogFile).toRow)
      ++ [({ sampleDownloading with
              downloaded_bytes := 10,
              download_pct := 1,
              status := "downloaded" } : CogFile).toRow] ∧
    ((runningTotalsFrom 0 [4, 6]).map fun b =>
        ({ sampleDownloading with
            downloaded_bytes := b,
            download_pct := (b : ℚ) / (sampleDownloading.total_size_bytes : ℚ) } : CogFile).toRow).getLast?
      = some (({ sampleDownloading with
            downloaded_bytes := 10,
            download_pct := 1 } : CogFile).toRow)) :=
  ⟨by norm_num, rfl, rfl, rfl, by norm_num [natSum],
    C5_chunk_accounting sampleDownloading 10 [4, 6] .ok (by norm_num) rfl rfl rfl
      (by norm_num [natSum])⟩

/-- C6: the claim says the monitor persists positive parses as
`convert_fraction` and stops on its own once the parse reaches 1.0.  The
`CogFile` model declares no `convert_pct` column, so the first strictly
positive parse makes the assignment `metadata.convert_pct = progress` raise
(pydantic refuses undeclared fields) before any commit: the monitor never
commits anything, and it can never reach its `>= 1.0` break (a parse of 1.0
is positive, so the assignment raises first).  Concretely, one tick over a
buffer reporting 50% kills the task with `ValueError` and an empty commit
log. -/
theorem C6_convert_progress_never_persisted :
    (∀ (samples : List String) (log : List Row),
      (update_convert_progress samples log).2 = log ∧
      (update_convert_progress samples log).1 ≠ .reachedFull) ∧
    update_convert_progress ["Processing: 50%"] [] = (.valueError, []) := by
  constructor
  · intro samples
    induction samples with
    | nil => exact fun log => ⟨rfl, by simp [update_convert_progress]⟩
    | cons s rest ih =>
      intro log
      simp only [update_convert_progress]
      cases hp : get_percentage_from_buffer s with
      | none => exact ih log
      | some p =>
        by_cases h0 : 0 < p
        · simp [h0]
        · have h1 : ¬ (1 : ℚ) ≤ p := fun h => h0 (lt_of_lt_of_le one_pos h)
          simp only [if_neg h0, if_neg h1]
          exact ih log
  · have hbuf : get_percentage_from_buffer "Processing: 50%" =
        some (numVal ['5', '0'] none / 100) := rfl
    have hval : numVal ['5', '0'] none = 50 := by
      norm_num [numVal, show digitsVal ['5', '0'] = 50 from by decide]
    simp only [update_convert_progress, hbuf, hval]
    norm_num

/-- C7: when the declared size cannot be obtained (HEAD timeout, or a
missing/empty/unparsable `Content-Length`), registration fails
synchronously: no record is created and no job is enqueued. -/
theorem C7_no_size_no_record_no_job (existing : Option CogFile) (head : HeadResult)
    (url path : String) (now : ℕ) (h : sizeUnobtainable head) :
    (file_download existing head url path now).newRecord = none ∧
    (file_download existing head url path now).jobEnqueued = false ∧
    (file_download existing head url path now).response ≠ .accepted := by
  cases existing with
  | some f =>
    rw [show file_download (some f) head url path now =
      { response := .serverError (.attributeError "error"), newRecord := none,
        jobEnqueued := false } from rfl]
    exact ⟨rfl, rfl, by simp⟩
  | none =>
    simp only [file_download]
    rcases h with h | h | ⟨s, hs, hint⟩
    · subst h; exact ⟨rfl, rfl, by simp [registrationBody]⟩
    · subst h; exact ⟨rfl, rfl, by simp [registrationBody]⟩
    · subst hs
      simp only [registrationBody]
      by_cases he : s = ""
      · simp [he]
      · simp [he, hint]

/-- C7 witness: a response with no `Content-Length` header. -/
theorem C7_witness :
    (file_download none (.response none) "http://example.com/a.tif" "/data/a.tif" 0).newRecord
        = none ∧
    (file_download none (.response none) "http://example.com/a.tif" "/data/a.tif" 0).jobEnqueued
        = false ∧
    (file_download none (.response none) "http://example.com/a.tif" "/data/a.tif" 0).response
        ≠ .accepted :=
  C7_no_size_no_record_no_job none (.response none) "http://example.com/a.tif" "/data/a.tif" 0
    (.inr (.inl rfl))

/-- C10: a HEAD response with `Content-Length: "0"` passes the truthiness
check `int(cl) if cl else None` (the string `"0"` is truthy), so
registration is accepted with `total_size_bytes = 0` and a job is enqueued;
the per-chunk update `downloaded_bytes / total_size_bytes` then raises an
unguarded `ZeroDivisionError` on the first chunk, after the byte counter
was already incremented. -/
theorem C10_zero_content_length_division (url path : String) (now : ℕ)
    (f : CogFile) (n : ℕ) (hf : f.total_size_bytes = 0) (hn : 0 < n) :
    (file_download none (.response (some "0")) url path now).response = .accepted ∧
    (file_download none (.response (some "0")) url path now).jobEnqueued = true ∧
    ((file_download none (.response (some "0")) url path now).newRecord.map
        CogFile.total_size_bytes) = some 0 ∧
    chunkStep f n =
      .error (.zeroDivisionError,
        { f with downloaded_bytes := f.downloaded_bytes + n }) := by
  refine ⟨rfl, rfl, rfl, ?_⟩
  simp [chunkStep, pyDiv, hf]

/-- C10 witness: the zero-size record from such a registration, with an
8 MiB first chunk. -/
theorem C10_witness :
    sampleZeroTotal.total_size_bytes = 0 ∧ 0 < 8388608 ∧
    (file_download none (.response (some "0")) "http://example.com/a.tif" "/data/a.tif" 0).response
        = .accepted ∧
    (file_download none (.response (some "0")) "http://example.com/a.tif" "/data/a.tif" 0).jobEnqueued
        = true ∧
    ((file_download none (.response (some "0")) "http://example.com/a.tif" "/data/a.tif" 0).newRecord.map
        CogFile.total_size_bytes) = some 0 ∧
    chunkStep sampleZeroTotal 8388608 =
      .error (.zeroDivisionError,
        { sampleZeroTotal with downloaded_bytes := sampleZeroTotal.downloaded_bytes + 8388608 }) :=
  ⟨rfl, by decide,
    C10_zero_content_length_division "http://example.com/a.tif" "/data/a.tif" 0
      sampleZeroTotal 8388608 rfl (by decide)⟩

end Temportofoto
